import Mathlib

/-!
Verification of the s3-remotely-sync reconciliation engine.

Shallow embedding of `src/s3sync/core.py`, `src/s3sync/utils.py` and
`src/s3sync/lock.py`.  Relative paths are strings and modification times are
integers.  The two Python dicts the engine works with — `local_files`
(relative path to mtime) and `metadata` (relative path to
`{'mtime': ..., 'synced_at': ...}`) — are association lists; a Python dict
has unique keys, and that fact is carried as a `Nodup` hypothesis where a
proof needs it.  The blob store, the filesystem walk and the clock are
inputs: `sync` receives the loaded metadata mapping, the enumerated local-files
mapping, the value of `time.time()` and a failure oracle saying which
per-file transfers raise.
-/

namespace S3sync

abbrev Path := String

abbrev Mtime := Int

/-- One value of the persisted metadata mapping, the dict
`{'mtime': ..., 'synced_at': ...}` written by `S3Sync.sync`. -/
structure MetaEntry where
  mtime : Mtime
  synced_at : Mtime
deriving DecidableEq, Repr

abbrev LocalFiles := List (Path × Mtime)

abbrev Metadata := List (Path × MetaEntry)

/-- Association-list lookup: models `d[p]` (and the membership test
`p in d`, via `isSome`) on a Python dict. -/
def alookup {α : Type} : List (Path × α) → Path → Option α
  | [], _ => none
  | (q, v) :: rest, p => if q = p then some v else alookup rest p

/-- Python dict assignment `d[p] = v`: an existing key keeps its position and
gets the new value, a new key is appended at the end. -/
def dictInsert {α : Type} : List (Path × α) → Path → α → List (Path × α)
  | [], p, v => [(p, v)]
  | (q, w) :: rest, p, v =>
    if q = p then (p, v) :: rest else (q, w) :: dictInsert rest p v

/-! ## Extension filtering (`src/s3sync/utils.py`) -/

/-- Index of the last '.' in a character list, if any. -/
def lastDotIdx : List Char → Option Nat
  | [] => none
  | c :: cs =>
    match lastDotIdx cs with
    | some i => some (i + 1)
    | none => if c = '.' then some 0 else none

/-- `os.path.splitext(filename)[1]` for a bare filename (no directory
separators, which is what `os.walk` hands to `should_sync_file`): the
extension starts at the last dot, except that a name whose characters before
that dot are all dots (".txt", "...") has no extension. -/
def splitextExt (s : String) : String :=
  let cs := s.toList
  match lastDotIdx cs with
  | none => ""
  | some i => if (cs.take i).any (fun c => c != '.') then String.mk (cs.drop i) else ""

/-- `should_sync_file` from `src/s3sync/utils.py`: an empty extension set
admits everything; otherwise the lowercased extension is tested against the
set, with the sense flipped by `blacklist`. -/
def should_sync_file (filename : String) (extensions : List String) (blacklist : Bool) : Bool :=
  if extensions.isEmpty then true
  else
    let ext := (splitextExt filename).toLower
    if blacklist then !(extensions.contains ext) else extensions.contains ext

/-! ## The `S3Sync` constructor state (`src/s3sync/core.py`, `__init__`) -/

/-- Python `str.rstrip('/')`: drop every trailing '/' character. -/
def pyRstripSlash (s : String) : String :=
  String.mk ((s.toList.reverse.dropWhile (fun c => c == '/')).reverse)

/-- The fields of `S3Sync` that the reconciliation logic reads:
`self.prefix`, `self.extensions`, `self.blacklist` (the source field is
called `prefix`; it is named `pre` here). -/
structure S3SyncState where
  pre : String
  extensions : List String
  blacklist : Bool
deriving DecidableEq, Repr

/-- `S3Sync.__init__`: stores `prefix.rstrip('/')` and
`set(ext.lower() for ext in (extensions or []))`. -/
def mkS3Sync (pre0 : String) (exts : List String) (bl : Bool) : S3SyncState :=
  { pre := pyRstripSlash pre0
    extensions := exts.map String.toLower
    blacklist := bl }

/-- The remote key the sync loop computes for a relative path (both loops):
the f-string `f"{self.prefix}/{rel_path}"`. -/
def s3Key (pre p : String) : String := pre ++ "/" ++ p

/-! ## The decision phase of `S3Sync.sync` -/

inductive SyncAction
  | upload
  | download
  | skip
deriving DecidableEq, Repr

/-- One reconciliation decision: the relative path, the remote key the loop
computes for it, and the action the mtime comparison selects. -/
structure SyncDecision where
  path : Path
  key : String
  action : SyncAction
deriving DecidableEq, Repr

/-- The branch of the first loop of `S3Sync.sync` for one locally present
path: no metadata entry means upload; otherwise strictly newer local mtime
means upload, strictly older means download, equal means neither (skip). -/
def decideLocal (meta : Metadata) (p : Path) (local_mtime : Mtime) : SyncAction :=
  match alookup meta p with
  | some e =>
    if e.mtime < local_mtime then SyncAction.upload
    else if local_mtime < e.mtime then SyncAction.download
    else SyncAction.skip
  | none => SyncAction.upload

/-- The ordered decision list of one pass of `S3Sync.sync`: the first loop
visits `local_files` in enumeration order, the second loop appends a
download for every metadata key absent locally.  (The running loop looks
paths up in the metadata dict it mutates as it goes, but it only ever
assigns the key it is currently visiting and dict keys are unique, so each
path's decision depends on the initial metadata only, and the keys the
first loop appends are local keys, which the second loop's
`not in local_files` test discards.) -/
def syncDecisions (pre : String) (locf : LocalFiles) (meta : Metadata) : List SyncDecision :=
  (locf.map fun pm => { path := pm.1, key := s3Key pre pm.1, action := decideLocal meta pm.1 pm.2 })
    ++ ((meta.filter fun pe => (alookup locf pe.1).isNone).map
        fun pe => { path := pe.1, key := s3Key pre pe.1, action := SyncAction.download })

/-! ## The executed pass, with per-file transfer outcomes

`_upload_file` and `_download_file` call the progress callback with
`('upload', rel_path)` / `('download', rel_path)` on success; on an
exception they call it with `('fail', rel_path)` and re-raise, which
propagates out of the loop in `sync`. -/

abbrev Event := String × Path

/-- Result of running one of the loops of `sync`: the observer events in
order, the metadata mapping at exit, and whether the loop ran to completion
(`ok = false` means a transfer raised and the exception is propagating). -/
structure LoopResult where
  events : List Event
  meta : Metadata
  ok : Bool
deriving DecidableEq, Repr

/-- The first loop of `S3Sync.sync` over `local_files.items()`, threading the
mutated metadata dict.  `fails p = true` means the transfer touching `p`
raises; the failed call reports `('fail', p)` and the exception aborts the
loop before the metadata assignment for `p`. -/
def runLocalLoop (fails : Path → Bool) (now : Mtime) :
    List (Path × Mtime) → Metadata → LoopResult
  | [], meta => { events := [], meta := meta, ok := true }
  | (p, lm) :: rest, meta =>
    match alookup meta p with
    | some e =>
      if e.mtime < lm then
        if fails p then { events := [("fail", p)], meta := meta, ok := false }
        else
          let r := runLocalLoop fails now rest (dictInsert meta p ⟨lm, now⟩)
          { events := ("upload", p) :: r.events, meta := r.meta, ok := r.ok }
      else if lm < e.mtime then
        if fails p then { events := [("fail", p)], meta := meta, ok := false }
        else
          let r := runLocalLoop fails now rest meta
          { events := ("download", p) :: r.events, meta := r.meta, ok := r.ok }
      else runLocalLoop fails now rest meta
    | none =>
      if fails p then { events := [("fail", p)], meta := meta, ok := false }
      else
        let r := runLocalLoop fails now rest (dictInsert meta p ⟨lm, now⟩)
        { events := ("upload", p) :: r.events, meta := r.meta, ok := r.ok }

/-- The second loop of `S3Sync.sync`: download every metadata key that is not
a local key.  Returns the events and whether the loop completed. -/
def runDownloadLoop (fails : Path → Bool) (locf : LocalFiles) :
    List (Path × MetaEntry) → List Event × Bool
  | [] => ([], true)
  | (p, _) :: rest =>
    if (alookup locf p).isNone then
      if fails p then ([("fail", p)], false)
      else
        let r := runDownloadLoop fails locf rest
        (("download", p) :: r.1, r.2)
    else runDownloadLoop fails locf rest

/-- The body of `S3Sync.sync` inside the `try`: both loops, then
`self.metadata.save(metadata)`.  The second component is the mapping passed
to `save`, or `none` when a transfer raised and the save was never reached. -/
def runSyncBody (fails : Path → Bool) (now : Mtime)
    (locf : LocalFiles) (meta : Metadata) : List Event × Option Metadata :=
  let r1 := runLocalLoop fails now locf meta
  if r1.ok then
    let r2 := runDownloadLoop fails locf r1.meta
    if r2.2 then (r1.events ++ r2.1, some r1.meta)
    else (r1.events ++ r2.1, none)
  else (r1.events, none)

/-- The metadata mapping a fully successful pass saves (every transfer
succeeds): the mutation the first loop performs before `save`. -/
def updateMeta (now : Mtime) (locf : LocalFiles) (meta : Metadata) : Metadata :=
  (runLocalLoop (fun _ => false) now locf meta).meta

/-! ## The lock (`src/s3sync/lock.py`) and the whole of `S3Sync.sync` -/

/-- State of the file lock as held by this process. -/
structure LockState where
  held : Bool
deriving DecidableEq, Repr

/-- `S3SyncLock.release`: unlock and drop the handle, whatever the state. -/
def lockRelease (_ : LockState) : LockState := { held := false }

/-- Outcome of one call of `S3Sync.sync`. -/
structure SyncOutcome where
  events : List Event
  saved : Option Metadata
  lock : LockState
deriving DecidableEq, Repr

/-- `S3Sync.sync`: if `acquire()` returned false the pass aborts at once;
otherwise the body runs inside `try ... finally: self.lock.release()`, so
the release executes on the normal exit and on the exception exit alike. -/
def sync (acquired : Bool) (fails : Path → Bool) (now : Mtime)
    (locf : LocalFiles) (meta : Metadata) : SyncOutcome :=
  if acquired then
    let b := runSyncBody fails now locf meta
    { events := b.1, saved := b.2, lock := lockRelease { held := true } }
  else { events := [], saved := none, lock := { held := false } }

/-! ## Dry-run statistics (`S3Sync.get_sync_stats`) -/

/-- `S3Sync.get_sync_stats`, returning
`(total_files, to_upload, to_download)`: a local path counts toward
`to_upload` whenever it has no metadata entry or its mtime differs from the
stored one; a metadata key absent locally counts toward `to_download` and
toward the total. -/
def get_sync_stats (locf : LocalFiles) (meta : Metadata) : Nat × Nat × Nat :=
  let to_upload :=
    (locf.filter fun pm =>
      match alookup meta pm.1 with
      | some e => pm.2 != e.mtime
      | none => true).length
  let to_download := (meta.filter fun pe => (alookup locf pe.1).isNone).length
  (locf.length + to_download, to_upload, to_download)

/-! ## Association-list lemmas -/

theorem alookup_eq_none_iff {α : Type} (l : List (Path × α)) (p : Path) :
    alookup l p = none ↔ p ∉ l.map Prod.fst := by
  induction l with
  | nil => simp [alookup]
  | cons q rest ih =>
    obtain ⟨qk, qv⟩ := q
    by_cases h : qk = p
    · subst h
      simp [alookup]
    · simp only [alookup, if_neg h, List.map_cons, List.mem_cons, ih]
      constructor
      · rintro hn (rfl | hm)
        · exact h rfl
        · exact hn hm
      · intro hn hm
        exact hn (Or.inr hm)

theorem alookup_isSome_iff {α : Type} (l : List (Path × α)) (p : Path) :
    (alookup l p).isSome = true ↔ p ∈ l.map Prod.fst := by
  rcases h : alookup l p with _ | v
  · rw [alookup_eq_none_iff] at h
    simp [h]
  · have : p ∈ l.map Prod.fst := by
      by_contra hc
      rw [← alookup_eq_none_iff l p] at hc
      rw [h] at hc
      cases hc
    simp [this]

theorem alookup_of_mem_nodup {α : Type} {l : List (Path × α)} {p : Path} {v : α}
    (hnd : (l.map Prod.fst).Nodup) (hm : (p, v) ∈ l) : alookup l p = some v := by
  induction l with
  | nil => cases hm
  | cons q rest ih =>
    obtain ⟨qk, qv⟩ := q
    rw [List.map_cons] at hnd
    obtain ⟨hnotin, hnd'⟩ := List.nodup_cons.mp hnd
    rcases List.mem_cons.mp hm with heq | hmem
    · cases heq
      simp [alookup]
    · have hk : qk ≠ p := by
        intro he
        apply hnotin
        rw [he]
        exact List.mem_map.mpr ⟨(p, v), hmem, rfl⟩
      simp [alookup, hk, ih hnd' hmem]

theorem mem_of_alookup_eq_some {α : Type} {l : List (Path × α)} {p : Path} {v : α}
    (h : alookup l p = some v) : (p, v) ∈ l := by
  induction l with
  | nil => cases h
  | cons q rest ih =>
    obtain ⟨qk, qv⟩ := q
    by_cases hk : qk = p
    · subst hk
      simp [alookup] at h
      subst h
      exact List.mem_cons_self _ _
    · simp only [alookup, if_neg hk] at h
      exact List.mem_cons_of_mem _ (ih h)

theorem alookup_dictInsert_self {α : Type} (m : List (Path × α)) (p : Path) (v : α) :
    alookup (dictInsert m p v) p = some v := by
  induction m with
  | nil => simp [dictInsert, alookup]
  | cons q rest ih =>
    obtain ⟨qk, qv⟩ := q
    by_cases hk : qk = p
    · simp [dictInsert, hk, alookup]
    · simp [dictInsert, hk, alookup, ih]

theorem alookup_dictInsert_ne {α : Type} (m : List (Path × α)) {q p : Path} (v : α)
    (h : q ≠ p) : alookup (dictInsert m q v) p = alookup m p := by
  induction m with
  | nil => simp [dictInsert, alookup, h]
  | cons r rest ih =>
    obtain ⟨rk, rv⟩ := r
    by_cases hk : rk = q
    · subst hk
      simp [dictInsert, alookup, h]
    · by_cases hp : rk = p
      · subst hp
        simp [dictInsert, hk, alookup]
      · simp [dictInsert, hk, alookup, hp, ih]

/-! ## Lemmas about the executed loops -/

theorem runLocalLoop_meta_notin (fails : Path → Bool) (now : Mtime) (p : Path)
    (l : List (Path × Mtime)) : ∀ (m : Metadata), p ∉ l.map Prod.fst →
      alookup (runLocalLoop fails now l m).meta p = alookup m p := by
  induction l with
  | nil =>
    intro m _
    rfl
  | cons q rest ih =>
    obtain ⟨qk, lm⟩ := q
    intro m h
    rw [List.map_cons, List.mem_cons] at h
    push_neg at h
    obtain ⟨hq, hrest⟩ := h
    have hq' : qk ≠ p := fun he => hq he.symm
    rcases hm : alookup m qk with _ | e
    · by_cases hf : fails qk
      · simp [runLocalLoop, hm, hf]
      · simp only [runLocalLoop, hm, hf]
        simp only [Bool.false_eq_true, if_false]
        rw [ih _ hrest, alookup_dictInsert_ne _ _ hq']
    · by_cases h1 : e.mtime < lm
      · by_cases hf : fails qk
        · simp [runLocalLoop, hm, h1, hf]
        · simp only [runLocalLoop, hm, h1, hf]
          simp only [Bool.false_eq_true, if_true, if_false]
          rw [ih _ hrest, alookup_dictInsert_ne _ _ hq']
      · by_cases h2 : lm < e.mtime
        · by_cases hf : fails qk
          · simp [runLocalLoop, hm, h1, h2, hf]
          · simp only [runLocalLoop, hm, h1, h2, hf]
            simp only [Bool.false_eq_true, if_true, if_false]
            rw [ih _ hrest]
        · simp only [runLocalLoop, hm, h1, h2, if_false]
          rw [ih _ hrest]

theorem runLocalLoop_events_paths (fails : Path → Bool) (now : Mtime)
    (l : List (Path × Mtime)) : ∀ (m : Metadata),
      ∀ ev ∈ (runLocalLoop fails now l m).events, ev.2 ∈ l.map Prod.fst := by
  induction l with
  | nil =>
    intro m ev hev
    simp [runLocalLoop] at hev
  | cons q rest ih =>
    obtain ⟨qk, lm⟩ := q
    intro m ev hev
    rw [List.map_cons]
    rcases hm : alookup m qk with _ | e
    · by_cases hf : fails qk
      · simp [runLocalLoop, hm, hf] at hev
        subst hev
        exact List.mem_cons_self _ _
      · simp [runLocalLoop, hm, hf] at hev
        rcases hev with rfl | hev
        · exact List.mem_cons_self _ _
        · exact List.mem_cons_of_mem _ (ih _ ev hev)
    · by_cases h1 : e.mtime < lm
      · by_cases hf : fails qk
        · simp [runLocalLoop, hm, h1, hf] at hev
          subst hev
          exact List.mem_cons_self _ _
        · simp [runLocalLoop, hm, h1, hf] at hev
          rcases hev with rfl | hev
          · exact List.mem_cons_self _ _
          · exact List.mem_cons_of_mem _ (ih _ ev hev)
      · by_cases h2 : lm < e.mtime
        · by_cases hf : fails qk
          · simp [runLocalLoop, hm, h1, h2, hf] at hev
            subst hev
            exact List.mem_cons_self _ _
          · simp [runLocalLoop, hm, h1, h2, hf] at hev
            rcases hev with rfl | hev
            · exact List.mem_cons_self _ _
            · exact List.mem_cons_of_mem _ (ih _ ev hev)
        · simp only [runLocalLoop, hm, h1, h2, if_false] at hev
          exact List.mem_cons_of_mem _ (ih _ ev hev)

theorem runLocalLoop_fail_shape (fails : Path → Bool) (now : Mtime)
    (l : List (Path × Mtime)) : ∀ (m : Metadata),
      ((runLocalLoop fails now l m).ok = true →
        ∀ ev ∈ (runLocalLoop fails now l m).events, ev.1 ≠ "fail")
      ∧ ((runLocalLoop fails now l m).ok = false →
        ∃ evs p, fails p = true
          ∧ (runLocalLoop fails now l m).events = evs ++ [("fail", p)]
          ∧ ∀ ev ∈ evs, ev.1 ≠ "fail") := by
  induction l with
  | nil =>
    intro m
    constructor
    · intro _ ev hev
      simp [runLocalLoop] at hev
    · intro h
      simp [runLocalLoop] at h
  | cons q rest ih =>
    obtain ⟨qk, lm⟩ := q
    intro m
    rcases hm : alookup m qk with _ | e
    · by_cases hf : fails qk
      · constructor
        · intro hok
          simp [runLocalLoop, hm, hf] at hok
        · intro _
          refine ⟨[], qk, hf, by simp [runLocalLoop, hm, hf], by intro ev hev; simp at hev⟩
      · constructor
        · intro hok ev hev
          simp only [runLocalLoop, hm, hf, Bool.false_eq_true, if_false] at hok hev
          rcases List.mem_cons.mp hev with rfl | hev'
          · simp
          · exact ((ih _).1 hok) ev hev'
        · intro hok
          simp only [runLocalLoop, hm, hf, Bool.false_eq_true, if_false] at hok ⊢
          obtain ⟨evs, p, hp, hevents, hnofail⟩ := (ih _).2 hok
          refine ⟨("upload", qk) :: evs, p, hp, ?_, ?_⟩
          · rw [hevents]
            simp
          · intro ev hev
            rcases List.mem_cons.mp hev with rfl | hev'
            · simp
            · exact hnofail ev hev'
    · by_cases h1 : e.mtime < lm
      · by_cases hf : fails qk
        · constructor
          · intro hok
            simp [runLocalLoop, hm, h1, hf] at hok
          · intro _
            refine ⟨[], qk, hf, by simp [runLocalLoop, hm, h1, hf], by intro ev hev; simp at hev⟩
        · constructor
          · intro hok ev hev
            simp only [runLocalLoop, hm, h1, hf, Bool.false_eq_true, if_true,
              if_false] at hok hev
            rcases List.mem_cons.mp hev with rfl | hev'
            · simp
            · exact ((ih _).1 hok) ev hev'
          · intro hok
            simp only [runLocalLoop, hm, h1, hf, Bool.false_eq_true, if_true,
              if_false] at hok ⊢
            obtain ⟨evs, p, hp, hevents, hnofail⟩ := (ih _).2 hok
            refine ⟨("upload", qk) :: evs, p, hp, ?_, ?_⟩
            · rw [hevents]
              simp
            · intro ev hev
              rcases List.mem_cons.mp hev with rfl | hev'
              · simp
              · exact hnofail ev hev'
      · by_cases h2 : lm < e.mtime
        · by_cases hf : fails qk
          · constructor
            · intro hok
              simp [runLocalLoop, hm, h1, h2, hf] at hok
            · intro _
              refine ⟨[], qk, hf, by simp [runLocalLoop, hm, h1, h2, hf],
                by intro ev hev; simp at hev⟩
          · constructor
            · intro hok ev hev
              simp only [runLocalLoop, hm, h1, h2, hf, Bool.false_eq_true, if_true,
                if_false] at hok hev
              rcases List.mem_cons.mp hev with rfl | hev'
              · simp
              · exact ((ih _).1 hok) ev hev'
            · intro hok
              simp only [runLocalLoop, hm, h1, h2, hf, Bool.false_eq_true, if_true,
                if_false] at hok ⊢
              obtain ⟨evs, p, hp, hevents, hnofail⟩ := (ih _).2 hok
              refine ⟨("download", qk) :: evs, p, hp, ?_, ?_⟩
              · rw [hevents]
                simp
              · intro ev hev
                rcases List.mem_cons.mp hev with rfl | hev'
                · simp
                · exact hnofail ev hev'
        · simp only [runLocalLoop, hm, h1, h2, if_false]
          exact ih m

theorem runDownloadLoop_fail_shape (fails : Path → Bool) (locf : LocalFiles)
    (ms : List (Path × MetaEntry)) :
    ((runDownloadLoop fails locf ms).2 = true →
        ∀ ev ∈ (runDownloadLoop fails locf ms).1, ev.1 ≠ "fail")
    ∧ ((runDownloadLoop fails locf ms).2 = false →
        ∃ evs p, fails p = true
          ∧ (runDownloadLoop fails locf ms).1 = evs ++ [("fail", p)]
          ∧ ∀ ev ∈ evs, ev.1 ≠ "fail") := by
  induction ms with
  | nil =>
    constructor
    · intro _ ev hev
      simp [runDownloadLoop] at hev
    · intro h
      simp [runDownloadLoop] at h
  | cons q rest ih =>
    obtain ⟨qk, qe⟩ := q
    by_cases hl : (alookup locf qk).isNone
    · by_cases hf : fails qk
      · constructor
        · intro hok
          simp [runDownloadLoop, hl, hf] at hok
        · intro _
          refine ⟨[], qk, hf, by simp [runDownloadLoop, hl, hf], by intro ev hev; simp at hev⟩
      · constructor
        · intro hok ev hev
          simp only [runDownloadLoop, hl, hf, Bool.false_eq_true, if_true,
            if_false] at hok hev
          rcases List.mem_cons.mp hev with rfl | hev'
          · simp
          · exact ih.1 hok ev hev'
        · intro hok
          simp only [runDownloadLoop, hl, hf, Bool.false_eq_true, if_true,
            if_false] at hok ⊢
          obtain ⟨evs, p, hp, hevents, hnofail⟩ := ih.2 hok
          refine ⟨("download", qk) :: evs, p, hp, ?_, ?_⟩
          · rw [hevents]
            simp
          · intro ev hev
            rcases List.mem_cons.mp hev with rfl | hev'
            · simp
            · exact hnofail ev hev'
    · simp only [runDownloadLoop, hl, if_false]
      exact ih

theorem runDownloadLoop_events_absent (fails : Path → Bool) (locf : LocalFiles)
    (ms : List (Path × MetaEntry)) :
    ∀ ev ∈ (runDownloadLoop fails locf ms).1, alookup locf ev.2 = none := by
  induction ms with
  | nil =>
    intro ev hev
    simp [runDownloadLoop] at hev
  | cons q rest ih =>
    obtain ⟨qk, qe⟩ := q
    intro ev hev
    by_cases hl : (alookup locf qk).isNone
    · by_cases hf : fails qk
      · simp [runDownloadLoop, hl, hf] at hev
        subst hev
        exact Option.isNone_iff_eq_none.mp hl
      · simp [runDownloadLoop, hl, hf] at hev
        rcases hev with rfl | hev'
        · exact Option.isNone_iff_eq_none.mp hl
        · exact ih ev hev'
    · simp only [runDownloadLoop, hl, if_false] at hev
      exact ih ev hev

/-! ## The metadata mapping after a fully successful first loop -/

theorem updateMeta_lookup_absent (now : Mtime) {p : Path} (locf : LocalFiles)
    (meta : Metadata) (hp : alookup locf p = none) :
    alookup (updateMeta now locf meta) p = alookup meta p :=
  runLocalLoop_meta_notin (fun _ => false) now p locf meta
    ((alookup_eq_none_iff locf p).mp hp)

theorem updateMeta_lookup (now : Mtime) (p : Path) (lm : Mtime) (locf : LocalFiles) :
    (locf.map Prod.fst).Nodup → alookup locf p = some lm → ∀ (meta : Metadata),
      alookup (updateMeta now locf meta) p =
        some (match alookup meta p with
              | none => MetaEntry.mk lm now
              | some e => if e.mtime < lm then MetaEntry.mk lm now else e) := by
  simp only [updateMeta]
  induction locf with
  | nil =>
    intro _ hp
    cases hp
  | cons q rest ih =>
    obtain ⟨qk, qm⟩ := q
    intro hnd hp meta
    rw [List.map_cons] at hnd
    obtain ⟨hnotin, hnd'⟩ := List.nodup_cons.mp hnd
    by_cases hk : qk = p
    · subst hk
      have hqm : qm = lm := by simpa [alookup] using hp
      subst hqm
      have hrest := runLocalLoop_meta_notin (fun _ => false) now qk rest
      rcases hm : alookup meta qk with _ | e
      · simp only [runLocalLoop, hm]
        simp only [Bool.false_eq_true, if_false]
        rw [hrest _ hnotin, alookup_dictInsert_self]
      · by_cases h1 : e.mtime < qm
        · simp only [runLocalLoop, hm, h1]
          simp [hrest _ hnotin, alookup_dictInsert_self, h1]
        · by_cases h2 : qm < e.mtime
          · simp only [runLocalLoop, hm, h1, h2]
            simp [hrest _ hnotin, hm, h1]
          · simp only [runLocalLoop, hm, h1, h2]
            simp [hrest _ hnotin, hm, h1]
    · have hp' : alookup rest p = some lm := by simpa [alookup, hk] using hp
      have hne : alookup (dictInsert meta qk (MetaEntry.mk qm now)) p = alookup meta p :=
        alookup_dictInsert_ne _ _ hk
      rcases hm : alookup meta qk with _ | e
      · simp only [runLocalLoop, hm]
        simp only [Bool.false_eq_true, if_false]
        rw [ih hnd' hp' _, hne]
      · by_cases h1 : e.mtime < qm
        · simp only [runLocalLoop, hm, h1]
          simp only [if_true, Bool.false_eq_true, if_false]
          rw [ih hnd' hp' _, hne]
        · by_cases h2 : qm < e.mtime
          · simp only [runLocalLoop, hm, h1, h2]
            simp only [if_false, if_true, Bool.false_eq_true]
            rw [ih hnd' hp' _]
          · simp only [runLocalLoop, hm, h1, h2, if_false]
            rw [ih hnd' hp' _]

theorem decideLocal_updateMeta (now : Mtime) {locf : LocalFiles} {p : Path} {lm : Mtime}
    (hnd : (locf.map Prod.fst).Nodup) (hp : alookup locf p = some lm) (meta : Metadata) :
    decideLocal (updateMeta now locf meta) p lm =
      match decideLocal meta p lm with
      | SyncAction.download => SyncAction.download
      | _ => SyncAction.skip := by
  rcases hm : alookup meta p with _ | e
  · rw [decideLocal, updateMeta_lookup now p lm locf hnd hp meta, hm]
    simp [decideLocal, hm]
  · by_cases h1 : e.mtime < lm
    · rw [decideLocal, updateMeta_lookup now p lm locf hnd hp meta, hm]
      simp [decideLocal, hm, h1]
    · by_cases h2 : lm < e.mtime
      · rw [decideLocal, updateMeta_lookup now p lm locf hnd hp meta, hm]
        simp [decideLocal, hm, h1, h2]
      · rw [decideLocal, updateMeta_lookup now p lm locf hnd hp meta, hm]
        simp [decideLocal, hm, h1, h2]

/-! ## The metadata-only entries survive the first loop untouched -/

theorem alookup_isNone_false_of_mem {α : Type} {l : List (Path × α)} {q : Path}
    (h : q ∈ l.map Prod.fst) : (alookup l q).isNone = false := by
  rcases hq : alookup l q with _ | v
  · rw [alookup_eq_none_iff] at hq
    exact absurd h hq
  · rfl

theorem filter_dictInsert_false {α : Type} (P : Path × α → Bool) (m : List (Path × α))
    (q : Path) (v : α) (hq : ∀ w : α, P (q, w) = false) :
    (dictInsert m q v).filter P = m.filter P := by
  induction m with
  | nil => simp [dictInsert, hq]
  | cons r rest ih =>
    obtain ⟨rk, rv⟩ := r
    by_cases hk : rk = q
    · subst hk
      simp [dictInsert, List.filter_cons, hq]
    · simp [dictInsert, hk, List.filter_cons, ih]

theorem runLocalLoop_meta_filter (fails : Path → Bool) (now : Mtime)
    (P : Path × MetaEntry → Bool) (l : List (Path × Mtime)) : ∀ (m : Metadata),
      (∀ q ∈ l.map Prod.fst, ∀ w : MetaEntry, P (q, w) = false) →
      ((runLocalLoop fails now l m).meta).filter P = m.filter P := by
  induction l with
  | nil =>
    intro m _
    rfl
  | cons qp rest ih =>
    obtain ⟨qk, qm⟩ := qp
    intro m hP
    have hq : ∀ w : MetaEntry, P (qk, w) = false := hP qk (by simp)
    have hP' : ∀ q ∈ rest.map Prod.fst, ∀ w : MetaEntry, P (q, w) = false :=
      fun q hqm w => hP q (by simp [hqm]) w
    rcases hm : alookup m qk with _ | e
    · by_cases hf : fails qk
      · simp [runLocalLoop, hm, hf]
      · simp only [runLocalLoop, hm, hf, Bool.false_eq_true, if_false]
        rw [ih _ hP', filter_dictInsert_false P m qk _ hq]
    · by_cases h1 : e.mtime < qm
      · by_cases hf : fails qk
        · simp [runLocalLoop, hm, h1, hf]
        · simp only [runLocalLoop, hm, h1, hf, Bool.false_eq_true, if_true, if_false]
          rw [ih _ hP', filter_dictInsert_false P m qk _ hq]
      · by_cases h2 : qm < e.mtime
        · by_cases hf : fails qk
          · simp [runLocalLoop, hm, h1, h2, hf]
          · simp only [runLocalLoop, hm, h1, h2, hf, Bool.false_eq_true, if_true, if_false]
            exact ih _ hP'
        · simp only [runLocalLoop, hm, h1, h2, if_false]
          exact ih _ hP'

theorem updateMeta_filter_local_absent (now : Mtime) (locf : LocalFiles) (meta : Metadata) :
    ((updateMeta now locf meta).filter fun pe => (alookup locf pe.1).isNone)
      = meta.filter fun pe => (alookup locf pe.1).isNone :=
  runLocalLoop_meta_filter (fun _ => false) now _ locf meta
    (fun _q hq _ => alookup_isNone_false_of_mem hq)

/-! ## Small auxiliary facts for the claim theorems -/

theorem dropWhileSlash_head (l : List Char) :
    (l.dropWhile (fun c => c == '/')).head? ≠ some '/' := by
  induction l with
  | nil => simp [List.dropWhile]
  | cons c cs ih =>
    by_cases hc : c = '/'
    · subst hc
      simpa [List.dropWhile] using ih
    · have hb : (c == '/') = false := by
        simpa using hc
      simp [List.dropWhile, hb, hc]

theorem pyRstripSlash_append_slash (s : String) :
    pyRstripSlash (s ++ "/") = pyRstripSlash s := by
  show String.mk (((s ++ "/").data.reverse.dropWhile (fun c => c == '/')).reverse)
      = String.mk ((s.data.reverse.dropWhile (fun c => c == '/')).reverse)
  rw [String.data_append]
  simp [List.dropWhile]

/-! ## Claim theorems -/

/-- C1 (code bug): the dry-run counts do not match the pass.  On a local file
strictly older than its metadata mtime, `get_sync_stats` reports it as one
pending upload and no pending download, while an actual sync pass on the same
inputs performs zero uploads and one download (the mtime-difference test in
the stats counts a to-be-downloaded file as an upload). -/
theorem c1_dry_run_stats_diverge :
    get_sync_stats [("a", 1)] [("a", MetaEntry.mk 2 0)] = (1, 1, 0)
    ∧ ((runSyncBody (fun _ => false) 100 [("a", 1)] [("a", MetaEntry.mk 2 0)]).1.filter
        (fun ev => ev.1 == "upload")).length = 0
    ∧ ((runSyncBody (fun _ => false) 100 [("a", 1)] [("a", MetaEntry.mk 2 0)]).1.filter
        (fun ev => ev.1 == "download")).length = 1 := by
  decide

/-- C7: however `sync` exits — acquire refused, every transfer successful, or
a transfer raising on any path — it terminates with the lock not held: the
release in the `finally` block runs on the normal exit and on the exception
exit alike. -/
theorem c7_lock_released (acquired : Bool) (fails : Path → Bool) (now : Mtime)
    (locf : LocalFiles) (meta : Metadata) :
    (sync acquired fails now locf meta).lock.held = false := by
  cases acquired <;> simp [sync, lockRelease]

/-- C8: an empty configured extension list admits every file whatever the
blacklist flag; a non-empty list, normalised by the constructor
(`set(ext.lower() ...)`), admits a file under the whitelist flag exactly when
its `os.path.splitext` extension is in the configured list compared
case-insensitively, and under the blacklist flag exactly when it is not. -/
theorem c8_extension_filter (filename : String) (exts : List String) (bl : Bool) :
    (should_sync_file filename (mkS3Sync "" [] bl).extensions bl = true)
    ∧ (exts ≠ [] →
        (should_sync_file filename (mkS3Sync "" exts false).extensions false = true ↔
          (splitextExt filename).toLower ∈ exts.map String.toLower))
    ∧ (exts ≠ [] →
        (should_sync_file filename (mkS3Sync "" exts true).extensions true = true ↔
          (splitextExt filename).toLower ∉ exts.map String.toLower)) := by
  refine ⟨rfl, ?_, ?_⟩
  · intro hne
    have hempty : (exts.map String.toLower).isEmpty = false := by
      cases exts with
      | nil => exact absurd rfl hne
      | cons e rest => rfl
    simp [should_sync_file, hempty, mkS3Sync, List.elem_iff]
  · intro hne
    have hempty : (exts.map String.toLower).isEmpty = false := by
      cases exts with
      | nil => exact absurd rfl hne
      | cons e rest => rfl
    simp [should_sync_file, hempty, mkS3Sync, List.elem_iff]

/-- C10: the constructor strips every trailing slash from the caller-supplied
S3 prefix; every remote key a pass computes is exactly the stored prefix, one
slash, then the relative path; a prefix given with a trailing slash builds
the same `S3Sync` state as without it; and the stored prefix never ends in a
slash, so no key doubles the separator at the boundary. -/
theorem c10_pre_normalization (pre0 : String) (exts : List String) (bl : Bool)
    (locf : LocalFiles) (meta : Metadata) :
    (mkS3Sync pre0 exts bl).pre = pyRstripSlash pre0
    ∧ mkS3Sync (pre0 ++ "/") exts bl = mkS3Sync pre0 exts bl
    ∧ (∀ d ∈ syncDecisions (mkS3Sync pre0 exts bl).pre locf meta,
        d.key = pyRstripSlash pre0 ++ "/" ++ d.path)
    ∧ (pyRstripSlash pre0).toList.getLast? ≠ some '/' := by
  refine ⟨rfl, ?_, ?_, ?_⟩
  · show mkS3Sync (pre0 ++ "/") exts bl = mkS3Sync pre0 exts bl
    rw [mkS3Sync, mkS3Sync, pyRstripSlash_append_slash]
  · intro d hd
    rcases List.mem_append.mp hd with hd1 | hd2
    · obtain ⟨pm, _, rfl⟩ := List.mem_map.mp hd1
      rfl
    · obtain ⟨pe, _, rfl⟩ := List.mem_map.mp hd2
      rfl
  · show ((pre0.data.reverse.dropWhile (fun c => c == '/')).reverse).getLast? ≠ some '/'
    rw [List.getLast?_reverse]
    exact dropWhileSlash_head _

/-! ## A skipped path generates no event -/

theorem runLocalLoop_skip_silent (fails : Path → Bool) (now : Mtime) (p : Path)
    (lm : Mtime) (e : MetaEntry) (l : List (Path × Mtime)) :
    (l.map Prod.fst).Nodup → alookup l p = some lm → ∀ (m : Metadata),
      alookup m p = some e → lm = e.mtime →
      ∀ ev ∈ (runLocalLoop fails now l m).events, ev.2 ≠ p := by
  induction l with
  | nil =>
    intro _ hp
    cases hp
  | cons q rest ih =>
    obtain ⟨qk, qm⟩ := q
    intro hnd hp m hme heq ev hev
    rw [List.map_cons] at hnd
    obtain ⟨hnotin, hnd'⟩ := List.nodup_cons.mp hnd
    by_cases hk : qk = p
    · subst hk
      have hqm : qm = lm := by simpa [alookup] using hp
      have h1 : ¬ e.mtime < qm := by
        rw [hqm, heq]
        exact lt_irrefl _
      have h2 : ¬ qm < e.mtime := by
        rw [hqm, heq]
        exact lt_irrefl _
      simp only [runLocalLoop, hme, h1, h2, if_false] at hev
      have hmem := runLocalLoop_events_paths fails now rest m ev hev
      intro hc
      rw [hc] at hmem
      exact hnotin hmem
    · have hp' : alookup rest p = some lm := by simpa [alookup, hk] using hp
      rcases hm : alookup m qk with _ | e2
      · by_cases hf : fails qk
        · simp [runLocalLoop, hm, hf] at hev
          subst hev
          simpa using hk
        · simp only [runLocalLoop, hm, hf, Bool.false_eq_true, if_false] at hev
          rcases List.mem_cons.mp hev with rfl | hev'
          · simpa using hk
          · exact ih hnd' hp' _ (by rw [alookup_dictInsert_ne _ _ hk]; exact hme) heq ev hev'
      · by_cases h1 : e2.mtime < qm
        · by_cases hf : fails qk
          · simp [runLocalLoop, hm, h1, hf] at hev
            subst hev
            simpa using hk
          · simp only [runLocalLoop, hm, h1, hf, Bool.false_eq_true, if_true,
              if_false] at hev
            rcases List.mem_cons.mp hev with rfl | hev'
            · simpa using hk
            · exact ih hnd' hp' _ (by rw [alookup_dictInsert_ne _ _ hk]; exact hme) heq ev hev'
        · by_cases h2 : qm < e2.mtime
          · by_cases hf : fails qk
            · simp [runLocalLoop, hm, h1, h2, hf] at hev
              subst hev
              simpa using hk
            · simp only [runLocalLoop, hm, h1, h2, hf, Bool.false_eq_true, if_true,
                if_false] at hev
              rcases List.mem_cons.mp hev with rfl | hev'
              · simpa using hk
              · exact ih hnd' hp' _ hme heq ev hev'
          · simp only [runLocalLoop, hm, h1, h2, if_false] at hev
            exact ih hnd' hp' _ hme heq ev hev

theorem runSyncBody_events_eq (fails : Path → Bool) (now : Mtime)
    (locf : LocalFiles) (meta : Metadata) :
    (runSyncBody fails now locf meta).1 =
      if (runLocalLoop fails now locf meta).ok
      then (runLocalLoop fails now locf meta).events
        ++ (runDownloadLoop fails locf (runLocalLoop fails now locf meta).meta).1
      else (runLocalLoop fails now locf meta).events := by
  by_cases hok : (runLocalLoop fails now locf meta).ok
  · by_cases h2 : (runDownloadLoop fails locf (runLocalLoop fails now locf meta).meta).2
    · simp [runSyncBody, hok, h2]
    · simp [runSyncBody, hok, h2]
  · simp [runSyncBody, hok]

/-- C2 (counterexample): local files a then b, both new, with the upload of a
raising: the observer sees only the fail event for a — b is never processed,
so the pass does not continue with the remaining decisions, and no metadata
is saved. -/
theorem c2_failure_aborts_pass_cex :
    (runSyncBody (fun p => p == "a") 100 [("a", 1), ("b", 2)] []).1 = [("fail", "a")]
    ∧ ("upload", "b") ∉ (runSyncBody (fun p => p == "a") 100 [("a", 1), ("b", 2)] []).1
    ∧ (runSyncBody (fun p => p == "a") 100 [("a", 1), ("b", 2)] []).2 = none := by
  decide

/-- C2 (amended): a transfer failure is reported to the observer under the
fail category, and metadata is only ever saved by a pass with no failure; a
failing transfer ends the pass at once — its fail event is the last event,
every earlier event is a success, and no metadata is saved, so the failed
file's entry (like every other) is left unchanged remotely. -/
theorem c2_failure_semantics (fails : Path → Bool) (now : Mtime)
    (locf : LocalFiles) (meta : Metadata) :
    ((runSyncBody fails now locf meta).2.isSome = true →
      ∀ ev ∈ (runSyncBody fails now locf meta).1, ev.1 ≠ "fail")
    ∧ ((runSyncBody fails now locf meta).2 = none →
      ∃ evs p, fails p = true
        ∧ (runSyncBody fails now locf meta).1 = evs ++ [("fail", p)]
        ∧ ∀ ev ∈ evs, ev.1 ≠ "fail") := by
  by_cases hok : (runLocalLoop fails now locf meta).ok
  · by_cases h2 : (runDownloadLoop fails locf (runLocalLoop fails now locf meta).meta).2
    · constructor
      · intro _ ev hev
        simp only [runSyncBody, hok, if_true, h2] at hev
        rcases List.mem_append.mp hev with h | h
        · exact (runLocalLoop_fail_shape fails now locf meta).1 hok ev h
        · exact (runDownloadLoop_fail_shape fails locf _).1 h2 ev h
      · intro hnone
        simp [runSyncBody, hok, h2] at hnone
    · constructor
      · intro hsome
        simp [runSyncBody, hok, h2] at hsome
      · intro _
        obtain ⟨evs, p, hp, hevents, hnf⟩ :=
          (runDownloadLoop_fail_shape fails locf _).2 (by simpa using h2)
        refine ⟨(runLocalLoop fails now locf meta).events ++ evs, p, hp, ?_, ?_⟩
        · simp only [runSyncBody, hok, if_true, h2]
          rw [hevents, List.append_assoc]
          simp [h2]
        · intro ev hev
          rcases List.mem_append.mp hev with h | h
          · exact (runLocalLoop_fail_shape fails now locf meta).1 hok ev h
          · exact hnf ev h
  · constructor
    · intro hsome
      simp [runSyncBody, hok] at hsome
    · intro _
      obtain ⟨evs, p, hp, hevents, hnf⟩ :=
        (runLocalLoop_fail_shape fails now locf meta).2 (by simpa using hok)
      refine ⟨evs, p, hp, ?_, hnf⟩
      simp only [runSyncBody, hok]
      simpa using hevents

/-- C2 witness: the amended failure semantics evaluated on a concrete aborted
pass. -/
theorem c2_failure_semantics_witness :
    ∃ evs p, (fun q => q == "a") p = true
      ∧ (runSyncBody (fun q => q == "a") 5 [("a", 1), ("b", 2)] []).1 = evs ++ [("fail", p)]
      ∧ ∀ ev ∈ evs, ev.1 ≠ "fail" :=
  (c2_failure_semantics (fun q => q == "a") 5 [("a", 1), ("b", 2)] []).2 (by decide)

/-- C3: for a path present both locally and in the metadata mapping, equal
mtimes give Skip with no transfer event for the path and an unchanged entry;
a strictly newer local mtime gives Upload, and the fully successful pass
rewrites the entry to mtime = the local mtime and synced_at = now; a strictly
older local mtime gives Download. -/
theorem c3_both_present (now : Mtime) (p : Path) (lm : Mtime) (e : MetaEntry)
    (locf : LocalFiles) (meta : Metadata)
    (hnd : (locf.map Prod.fst).Nodup)
    (hl : alookup locf p = some lm) (hm : alookup meta p = some e) :
    (decideLocal meta p lm = SyncAction.skip ↔ lm = e.mtime)
    ∧ (lm = e.mtime → alookup (updateMeta now locf meta) p = some e)
    ∧ (lm = e.mtime →
        ∀ ev ∈ (runSyncBody (fun _ => false) now locf meta).1, ev.2 ≠ p)
    ∧ (decideLocal meta p lm = SyncAction.upload ↔ e.mtime < lm)
    ∧ (e.mtime < lm →
        alookup (updateMeta now locf meta) p = some (MetaEntry.mk lm now))
    ∧ (decideLocal meta p lm = SyncAction.download ↔ lm < e.mtime) := by
  have hdec : decideLocal meta p lm =
      (if e.mtime < lm then SyncAction.upload
       else if lm < e.mtime then SyncAction.download else SyncAction.skip) := by
    rw [decideLocal, hm]
  refine ⟨?_, ?_, ?_, ?_, ?_, ?_⟩
  · rw [hdec]
    by_cases h1 : e.mtime < lm
    · simp only [h1, if_true]
      constructor
      · intro hc
        cases hc
      · intro hc
        exact absurd hc h1.ne'
    · by_cases h2 : lm < e.mtime
      · simp only [h1, h2, if_false, if_true]
        constructor
        · intro hc
          cases hc
        · intro hc
          exact absurd hc h2.ne
      · simp only [h1, h2, if_false]
        simp [le_antisymm (not_lt.mp h2) (not_lt.mp h1)]
  · intro heq
    have h1 : ¬ e.mtime < lm := by
      rw [heq]
      exact lt_irrefl _
    rw [updateMeta_lookup now p lm locf hnd hl meta, hm]
    simp [h1]
  · intro heq ev hev
    rw [runSyncBody_events_eq] at hev
    by_cases hok : (runLocalLoop (fun _ => false) now locf meta).ok
    · rw [if_pos hok] at hev
      rcases List.mem_append.mp hev with h | h
      · exact runLocalLoop_skip_silent (fun _ => false) now p lm e locf hnd hl meta hm heq ev h
      · intro hc
        have habs := runDownloadLoop_events_absent (fun _ => false) locf _ ev h
        rw [hc, hl] at habs
        cases habs
    · rw [if_neg hok] at hev
      exact runLocalLoop_skip_silent (fun _ => false) now p lm e locf hnd hl meta hm heq ev hev
  · rw [hdec]
    by_cases h1 : e.mtime < lm
    · simp [h1]
    · by_cases h2 : lm < e.mtime
      · simp [h1, h2]
      · simp [h1, h2]
  · intro h1
    rw [updateMeta_lookup now p lm locf hnd hl meta, hm]
    simp [h1]
  · rw [hdec]
    by_cases h1 : e.mtime < lm
    · simp only [h1, if_true]
      constructor
      · intro hc
        cases hc
      · intro hc
        exact absurd hc (lt_asymm h1)
    · by_cases h2 : lm < e.mtime
      · simp [h1, h2]
      · simp [h1, h2]

/-- C3 witness: equal mtimes leave the metadata entry unchanged. -/
theorem c3_both_present_witness :
    alookup (updateMeta 100 [("a", 5)] [("a", MetaEntry.mk 5 0)]) "a"
      = some (MetaEntry.mk 5 0) :=
  (c3_both_present 100 "a" 5 (MetaEntry.mk 5 0) [("a", 5)] [("a", MetaEntry.mk 5 0)]
    (by decide) (by decide) (by decide)).2.1 rfl

/-- C4: a path present locally with no metadata entry is decided Upload and
the fully successful pass creates its entry with mtime = the local mtime
(and synced_at = now); a path with a metadata entry but absent locally is
decided Download, whatever the stored mtime, as one of the appended
decisions of the second loop. -/
theorem c4_one_sided (now : Mtime) (pre : String) (p : Path) (lm : Mtime)
    (e : MetaEntry) (locf : LocalFiles) (meta : Metadata)
    (hnd : (locf.map Prod.fst).Nodup) :
    (alookup meta p = none → alookup locf p = some lm →
      decideLocal meta p lm = SyncAction.upload
      ∧ alookup (updateMeta now locf meta) p = some (MetaEntry.mk lm now))
    ∧ (alookup meta p = some e → alookup locf p = none →
      SyncDecision.mk p (s3Key pre p) SyncAction.download ∈ syncDecisions pre locf meta) := by
  constructor
  · intro hm hl
    constructor
    · rw [decideLocal, hm]
    · rw [updateMeta_lookup now p lm locf hnd hl meta, hm]
  · intro hm hl
    apply List.mem_append_right
    apply List.mem_map.mpr
    refine ⟨(p, e), ?_, rfl⟩
    apply List.mem_filter.mpr
    refine ⟨mem_of_alookup_eq_some hm, ?_⟩
    simp [hl]

/-- C4 witness: the metadata-only path b is decided Download. -/
theorem c4_one_sided_witness :
    SyncDecision.mk "b" (s3Key "p" "b") SyncAction.download
      ∈ syncDecisions "p" [("a", 3)] [("b", MetaEntry.mk 7 0)] :=
  (c4_one_sided 100 "p" "b" 0 (MetaEntry.mk 7 0) [("a", 3)] [("b", MetaEntry.mk 7 0)]
    (by decide)).2 (by decide) (by decide)

/-- C5: one pass produces exactly one decision per path of the union of local
and metadata paths: the decision paths are the local enumeration in order
followed by the metadata-only paths in metadata order, with no duplicates,
and a path receives a decision precisely when it is local or has a metadata
entry. -/
theorem c5_decisions_partition (pre : String) (locf : LocalFiles) (meta : Metadata)
    (hndl : (locf.map Prod.fst).Nodup) (hndm : (meta.map Prod.fst).Nodup) :
    ((syncDecisions pre locf meta).map SyncDecision.path
      = locf.map Prod.fst
        ++ ((meta.filter fun pe => (alookup locf pe.1).isNone).map Prod.fst))
    ∧ ((syncDecisions pre locf meta).map SyncDecision.path).Nodup
    ∧ (∀ p, p ∈ (syncDecisions pre locf meta).map SyncDecision.path ↔
        (p ∈ locf.map Prod.fst ∨ p ∈ meta.map Prod.fst)) := by
  have hpaths : (syncDecisions pre locf meta).map SyncDecision.path
      = locf.map Prod.fst
        ++ ((meta.filter fun pe => (alookup locf pe.1).isNone).map Prod.fst) := by
    rw [syncDecisions, List.map_append, List.map_map, List.map_map]
    congr 1
  have hnd2 : ((meta.filter fun pe => (alookup locf pe.1).isNone).map Prod.fst).Nodup :=
    hndm.sublist ((List.filter_sublist meta).map Prod.fst)
  have hdisj : List.Disjoint (locf.map Prod.fst)
      ((meta.filter fun pe => (alookup locf pe.1).isNone).map Prod.fst) := by
    intro a ha hb
    obtain ⟨pe, hpe, rfl⟩ := List.mem_map.mp hb
    have hno := (List.mem_filter.mp hpe).2
    rw [alookup_isNone_false_of_mem ha] at hno
    cases hno
  refine ⟨hpaths, ?_, ?_⟩
  · rw [hpaths]
    exact hndl.append hnd2 hdisj
  · intro p
    rw [hpaths]
    constructor
    · intro hp
      rcases List.mem_append.mp hp with h | h
      · exact Or.inl h
      · obtain ⟨pe, hpe, rfl⟩ := List.mem_map.mp h
        exact Or.inr (List.mem_map.mpr ⟨pe, (List.mem_filter.mp hpe).1, rfl⟩)
    · intro hp
      rcases hp with h | h
      · exact List.mem_append_left _ h
      · by_cases hloc : p ∈ locf.map Prod.fst
        · exact List.mem_append_left _ hloc
        · apply List.mem_append_right
          obtain ⟨pe, hpe, rfl⟩ := List.mem_map.mp h
          apply List.mem_map.mpr
          refine ⟨pe, List.mem_filter.mpr ⟨hpe, ?_⟩, rfl⟩
          rw [(alookup_eq_none_iff locf pe.1).mpr hloc]
          rfl

/-- C5 witness: the decision paths of the worked example are nodup. -/
theorem c5_decisions_partition_witness :
    ((syncDecisions "p" [("a", 100), ("b", 50)]
        [("a", MetaEntry.mk 100 0), ("c", MetaEntry.mk 10 0)]).map SyncDecision.path).Nodup :=
  (c5_decisions_partition "p" [("a", 100), ("b", 50)]
    [("a", MetaEntry.mk 100 0), ("c", MetaEntry.mk 10 0)] (by decide) (by decide)).2.1

/-- C6 (counterexample): a local file strictly older than its metadata entry
is downloaded by the first pass, which does not touch its entry; a second
pass on the same local mapping and the saved metadata decides Download
again, so the second pass is not all-Skip. -/
theorem c6_second_pass_not_all_skip_cex :
    ¬ ∀ d ∈ syncDecisions "p" [("a", 1)] (updateMeta 100 [("a", 1)] [("a", MetaEntry.mk 2 0)]),
        d.action = SyncAction.skip := by
  decide

/-- C6 (amended): rerunning the decision phase on the same local mapping and
the metadata saved by a fully successful pass turns every first-pass Upload
or Skip into Skip, while every first-pass Download — a local file older than
its entry, or a metadata-only path — is decided Download again; in
particular the second pass issues no Upload, but it is all-Skip only when
the first pass had no Download. -/
theorem c6_second_pass (pre : String) (now : Mtime) (locf : LocalFiles) (meta : Metadata)
    (hnd : (locf.map Prod.fst).Nodup) :
    syncDecisions pre locf (updateMeta now locf meta)
      = (syncDecisions pre locf meta).map fun d =>
          SyncDecision.mk d.path d.key
            (match d.action with
             | SyncAction.download => SyncAction.download
             | _ => SyncAction.skip) := by
  rw [syncDecisions, syncDecisions, List.map_append]
  congr 1
  · rw [List.map_map]
    apply List.map_congr_left
    intro pm hpm
    obtain ⟨p, lm⟩ := pm
    have hl : alookup locf p = some lm := alookup_of_mem_nodup hnd hpm
    simp only [Function.comp]
    rw [decideLocal_updateMeta now hnd hl meta]
  · rw [updateMeta_filter_local_absent, List.map_map]
    apply List.map_congr_left
    intro pe _
    simp [Function.comp]

/-- C6 witness: the amended second-pass law on the counterexample inputs. -/
theorem c6_second_pass_witness :
    syncDecisions "p" [("a", 1)] (updateMeta 100 [("a", 1)] [("a", MetaEntry.mk 2 0)])
      = (syncDecisions "p" [("a", 1)] [("a", MetaEntry.mk 2 0)]).map fun d =>
          SyncDecision.mk d.path d.key
            (match d.action with
             | SyncAction.download => SyncAction.download
             | _ => SyncAction.skip) :=
  c6_second_pass "p" 100 [("a", 1)] [("a", MetaEntry.mk 2 0)] (by decide)

/-- C8 witness: the whitelist case evaluated on a concrete uppercase file. -/
theorem c8_extension_filter_witness :
    should_sync_file "a.TXT" (mkS3Sync "" [".txt"] false).extensions false = true ↔
      (splitextExt "a.TXT").toLower ∈ [".txt"].map String.toLower :=
  (c8_extension_filter "a.TXT" [".txt"] false).2.1 (by decide)

/-- C10 witness: the key computed for the relative path x under a prefix
given with trailing slashes. -/
theorem c10_pre_normalization_witness :
    (SyncDecision.mk "x" (s3Key "data" "x") SyncAction.upload).key
      = pyRstripSlash "data///" ++ "/" ++ "x" :=
  (c10_pre_normalization "data///" [] false [("x", 1)] []).2.2.1
    (SyncDecision.mk "x" (s3Key "data" "x") SyncAction.upload) (by decide)

end S3sync
